import Mathlib

/-!
# Verification of the slice-pool chunk allocator

Shallow embedding of the chunk bookkeeping code of the `slice-pool`
repository.  Two historical variants of the allocator live in the sources
and both are embedded here:

* `SlicePool.ChunkChain` — the thread-safe chunk chain of `src/sync/mod.rs`
  (best-fit selection via `min_by_key`, unilateral coalescing on release,
  binary search by offset).
* `SlicePool.ChunkableInner` — the older allocator of `src/lib.rs`
  (first-fit selection via `position`, bilateral coalescing through
  `defragment`).

The chunk tables are lists of `Chunk` records; the mutating Rust methods
become pure functions returning the new table (and the returned chunk for
`allocate`).  A `panic!`/`expect`/`unwrap` is modelled by returning `none`.
-/

namespace SlicePool

/-- A chunk of memory inside a slice (`struct Chunk` in `src/lib.rs`):
half-open index range `[offset, offset + size)` tagged free or occupied. -/
structure Chunk where
  offset : Nat
  size : Nat
  free : Bool
deriving DecidableEq, Repr

instance : Inhabited Chunk := ⟨⟨0, 0, false⟩⟩

/-- Modelled from the spec: the crate-root file of the `sync` era (which
declares `Chunk::new`) is not among the sources; the spec says the table is
"created with one chunk spanning the whole range (`free = true`)". -/
def Chunk.new (size : Nat) : Chunk := ⟨0, size, true⟩

/-- Modelled from the spec: `Chunk::with_offset(size, offset)` is declared in
the missing crate-root file; per the spec the leftover surplus is placed as
"a new free chunk" at the given offset. -/
def Chunk.withOffset (size offset : Nat) : Chunk := ⟨offset, size, true⟩

/-- `enum Order` from `src/sync/mod.rs`. -/
inductive Order where
  | preceding
  | following

/-- `ChunkChain::has_free_adjacent` from `src/sync/mod.rs`. -/
def hasFreeAdjacent (chunks : List Chunk) (index : Nat) : Order → Bool
  | Order.preceding => decide (0 < index) && (chunks.getD (index - 1) default).free
  | Order.following => decide (index + 1 < chunks.length) && (chunks.getD (index + 1) default).free

/-- The candidate-selection pipeline of `ChunkChain::allocate`
(`iter().enumerate().filter(free && size ≥ requested).min_by_key(size)`),
fused into one recursion.  `i` is the index of the head of the remaining
list.  Rust's `min_by_key` returns the first element among equal minima,
which is what keeping the head on ties implements. -/
def bestCandidate (size : Nat) : Nat → List Chunk → Option (Nat × Chunk)
  | _, [] => none
  | i, c :: rest =>
    let tail := bestCandidate size (i + 1) rest
    if c.free && size ≤ c.size then
      match tail with
      | none => some (i, c)
      | some (j, d) => if d.size < c.size then some (j, d) else some (i, c)
    else
      tail

/-- Index chosen by the selection step of `ChunkChain::allocate`. -/
def selectIndex (chunks : List Chunk) (size : Nat) : Option Nat :=
  (bestCandidate size 0 chunks).map Prod.fst

namespace ChunkChain

/-- `ChunkChain::allocate` from `src/sync/mod.rs`.  Returns the updated
chunk list together with the returned `Chunk` value (`Some(chunks[index])`),
or `none` when no free chunk of sufficient size exists. -/
def allocate (chunks : List Chunk) (size : Nat) : Option (List Chunk × Chunk) :=
  match selectIndex chunks size with
  | none => none
  | some index =>
    -- Determine whether there is any memory surplus
    let delta := (chunks.getD index default).size - size
    if 0 < delta then
      -- Deduct the left over memory from the allocation
      let cs1 := chunks.set index
        { chunks.getD index default with
          size := (chunks.getD index default).size - delta }
      if hasFreeAdjacent cs1 index Order.preceding then
        -- Increase the size of the preceding chunk
        let cs2 := cs1.set (index - 1)
          { cs1.getD (index - 1) default with
            size := (cs1.getD (index - 1) default).size + delta }
        -- Shift the offset of the allocated chunk
        let cs3 := cs2.set index
          { cs2.getD index default with
            offset := (cs2.getD index default).offset + delta }
        some (cs3, cs3.getD index default)
      else if hasFreeAdjacent cs1 index Order.following then
        -- Update the size and offset of the next chunk
        let cs2 := cs1.set (index + 1)
          { cs1.getD (index + 1) default with
            offset := (cs1.getD (index + 1) default).offset - delta
            size := (cs1.getD (index + 1) default).size + delta }
        some (cs2, cs2.getD index default)
      else
        -- Insert a new chunk representing the surplus memory
        let offset := (cs1.getD index default).offset + size
        let cs2 := List.insertIdx (index + 1) (Chunk.withOffset delta offset) cs1
        let cs3 := cs2.set index { cs2.getD index default with free := false }
        some (cs3, cs3.getD index default)
    else
      -- The allocation covers a single chunk
      let cs1 := chunks.set index { chunks.getD index default with free := false }
      some (cs1, cs1.getD index default)

/-- The loop of Rust's `slice::binary_search_by_key`, embedded with an
explicit fuel argument in place of the `while` loop (the interval shrinks
at every iteration, so any fuel of at least `right - left` reproduces the
loop exactly; `release` calls it with the list length).  Returns `some mid`
for `Ok(mid)` and `none` for `Err(_)`. -/
def binarySearchGo (keys : List Nat) (target : Nat) : Nat → Nat → Nat → Option Nat
  | 0, _, _ => none
  | fuel + 1, left, right =>
    if left < right then
      let mid := left + (right - left) / 2
      let k := keys.getD mid 0
      if k < target then binarySearchGo keys target fuel (mid + 1) right
      else if target < k then binarySearchGo keys target fuel left mid
      else some mid
    else
      none

/-- `chunks.binary_search_by_key(&offset, |chunk| chunk.offset)`. -/
def binarySearchByOffset (chunks : List Chunk) (offset : Nat) : Option Nat :=
  binarySearchGo (chunks.map Chunk.offset) offset (chunks.length) 0 (chunks.length)

/-- `ChunkChain::release` from `src/sync/mod.rs`.  `none` models the
panic of `.expect("releasing chunk")` when the offset is not found. -/
def release (chunks : List Chunk) (offset : Nat) : Option (List Chunk) :=
  match binarySearchByOffset chunks offset with
  | none => none
  | some index =>
    let size := (chunks.getD index default).size
    if hasFreeAdjacent chunks index Order.preceding then
      -- Increase the preceding chunk's size
      let cs1 := chunks.set (index - 1)
        { chunks.getD (index - 1) default with
          size := (chunks.getD (index - 1) default).size + size }
      some (cs1.eraseIdx index)
    else if hasFreeAdjacent chunks index Order.following then
      -- Increase the extent of the next chunk
      let cs1 := chunks.set (index + 1)
        { chunks.getD (index + 1) default with
          offset := (chunks.getD (index + 1) default).offset - size
          size := (chunks.getD (index + 1) default).size + size }
      some (cs1.eraseIdx index)
    else
      -- No free adjacent chunks, simply mark this one as free
      some (chunks.set index { chunks.getD index default with free := true })

end ChunkChain

namespace ChunkableInner

/-- `ChunkableInner::defragment` from `src/lib.rs`: merges up to three
adjacent (free) chunks around `index`. -/
def defragment (values : List Chunk) (index : Nat) : List Chunk :=
  let adjacentIndex := index + 1
  -- Determine if this chunk can be merged with the one after
  let cs1 :=
    if (values.get? adjacentIndex).elim false Chunk.free then
      (values.set index
        { values.getD index default with
          size := (values.getD index default).size + (values.getD adjacentIndex default).size
        }).eraseIdx adjacentIndex
    else values
  -- Determine if this chunk can be merged with the one before
  if decide (0 < index) && (cs1.getD (index - 1) default).free then
    (cs1.set (index - 1)
      { cs1.getD (index - 1) default with
        size := (cs1.getD (index - 1) default).size + (cs1.getD index default).size
      }).eraseIdx index
  else cs1

/-- `ChunkableInner::allocate` from `src/lib.rs` (first fit via
`position`).  The returned slice `memory[chunk_range]` is represented by
the returned `chunk` record, whose `offset`/`size` are exactly the bounds
of `chunk_range`. -/
def allocate (values : List Chunk) (size : Nat) : Option (List Chunk × Chunk) :=
  match values.findIdx? (fun chunk => chunk.free && size ≤ chunk.size) with
  | none => none
  | some index =>
    let chunk0 := values.getD index default
    let deltaSize := chunk0.size - size
    let chunk : Chunk :=
      { chunk0 with size := chunk0.size - deltaSize, free := false }
    -- Update the internal chunk
    let cs1 := values.set index chunk
    if 0 < deltaSize then
      let adjacentIndex := index + 1
      -- Insert any left-over memory as a new chunk
      let cs2 := List.insertIdx adjacentIndex
        ⟨chunk0.offset + size, deltaSize, true⟩ cs1
      some (defragment cs2 adjacentIndex, chunk)
    else
      some (cs1, chunk)

/-- `ChunkableInner::release` from `src/lib.rs`.  The slice argument is
identified in the source by pointer arithmetic
(`memory.as_ptr().offset(chunk.offset) == slice.as_ptr()`), which at this
level of abstraction is exactly equality of offsets; `none` models the
panic of `.unwrap()` when no chunk matches. -/
def release (values : List Chunk) (offset : Nat) : Option (List Chunk) :=
  match values.findIdx? (fun chunk => chunk.offset == offset) with
  | none => none
  | some index =>
    some (defragment (values.set index
      { values.getD index default with free := true }) index)

end ChunkableInner

/-! ## Table invariants (from the spec's data model) -/

/-- The chunks starting at base offset `o` are contiguous: each record's
offset is the running sum of the sizes before it.  Together with
`sumSizes`, this captures the spec's contiguity and coverage invariants. -/
def isChain : Nat → List Chunk → Prop
  | _, [] => True
  | o, c :: rest => c.offset = o ∧ isChain (o + c.size) rest

/-- Total number of indices covered by the table. -/
def sumSizes (chunks : List Chunk) : Nat :=
  (chunks.map Chunk.size).sum

/-- No two adjacent chunks are both free. -/
def noAdjFree : List Chunk → Prop
  | c :: d :: rest => (c.free = false ∨ d.free = false) ∧ noAdjFree (d :: rest)
  | _ => True

/-- All chunk sizes are positive (the spec's `size: integer > 0`). -/
def allPos (chunks : List Chunk) : Prop := ∀ c ∈ chunks, 0 < c.size

/-- States of the `ChunkChain` table reachable from the initial
one-free-chunk table by `allocate` calls with positive size and by
`release` calls that return normally. -/
inductive Reachable (total : Nat) : List Chunk → Prop
  | init : Reachable total [Chunk.new total]
  | alloc {cs cs' : List Chunk} {c : Chunk} {s : Nat} (hs : 0 < s)
      (h : Reachable total cs)
      (ha : ChunkChain.allocate cs s = some (cs', c)) : Reachable total cs'
  | rel {cs cs' : List Chunk} {o : Nat}
      (h : Reachable total cs)
      (hr : ChunkChain.release cs o = some cs') : Reachable total cs'

end SlicePool

/-! ## List surgery helpers -/

namespace SlicePool

variable {α : Type _}

theorem getD_append_len (l₁ l₂ : List α) (a d : α) :
    (l₁ ++ a :: l₂).getD l₁.length d = a := by
  induction l₁ with
  | nil => rfl
  | cons x xs ih => simpa using ih

theorem set_append_len (l₁ l₂ : List α) (a b : α) :
    (l₁ ++ a :: l₂).set l₁.length b = l₁ ++ b :: l₂ := by
  induction l₁ with
  | nil => rfl
  | cons x xs ih => simp [ih]

theorem eraseIdx_append_len (l₁ l₂ : List α) (a : α) :
    (l₁ ++ a :: l₂).eraseIdx l₁.length = l₁ ++ l₂ := by
  induction l₁ with
  | nil => rfl
  | cons x xs ih => simpa using ih

theorem insertIdx_append_len (l₁ l₂ : List α) (b : α) :
    List.insertIdx l₁.length b (l₁ ++ l₂) = l₁ ++ b :: l₂ := by
  induction l₁ with
  | nil => rfl
  | cons x xs ih => simpa [List.insertIdx_succ_cons] using ih

theorem exists_decomp (l : List α) (i : Nat) (d : α) (h : i < l.length) :
    ∃ l₁ l₂, l = l₁ ++ l.getD i d :: l₂ ∧ l₁.length = i := by
  induction l generalizing i with
  | nil => simp at h
  | cons x xs ih =>
    cases i with
    | zero => exact ⟨[], xs, rfl, rfl⟩
    | succ j =>
      obtain ⟨l₁, l₂, hl, hlen⟩ := ih j (by simpa using h)
      exact ⟨x :: l₁, l₂, by simpa using congrArg (x :: ·) hl, by simp [hlen]⟩

theorem getD_set_self (l : List α) (i : Nat) (v d : α) (h : i < l.length) :
    (l.set i v).getD i d = v := by
  induction l generalizing i with
  | nil => simp at h
  | cons x xs ih =>
    cases i with
    | zero => rfl
    | succ j => simpa using ih j (by simpa using h)

theorem getD_set_ne (l : List α) (i j : Nat) (v d : α) (h : i ≠ j) :
    (l.set i v).getD j d = l.getD j d := by
  induction l generalizing i j with
  | nil => simp
  | cons x xs ih =>
    cases i with
    | zero =>
      cases j with
      | zero => exact absurd rfl h
      | succ j' => simp
    | succ i' =>
      cases j with
      | zero => simp
      | succ j' => simpa using ih i' j' (fun hc => h (by simp [hc]))

theorem getD_insertIdx_of_lt (l : List α) (n j : Nat) (a d : α) (h : j < n) :
    (List.insertIdx n a l).getD j d = l.getD j d := by
  induction l generalizing n j with
  | nil =>
    cases n with
    | zero => simp at h
    | succ m => simp [List.insertIdx_succ_nil]
  | cons x xs ih =>
    cases n with
    | zero => simp at h
    | succ m =>
      cases j with
      | zero => simp [List.insertIdx_succ_cons]
      | succ j' => simpa [List.insertIdx_succ_cons] using ih m j' (by omega)

theorem getD_mem (l : List α) (i : Nat) (d : α) (h : i < l.length) :
    l.getD i d ∈ l := by
  induction l generalizing i with
  | nil => simp at h
  | cons x xs ih =>
    cases i with
    | zero => simp
    | succ j => exact List.mem_cons_of_mem x (ih j (by simpa using h))

theorem getD_map_offset (cs : List Chunk) (i : Nat) (h : i < cs.length) :
    (cs.map Chunk.offset).getD i 0 = (cs.getD i default).offset := by
  induction cs generalizing i with
  | nil => simp at h
  | cons x xs ih =>
    cases i with
    | zero => rfl
    | succ j => simpa using ih j (by simpa using h)

/-! ## Invariant lemmas -/

@[simp] theorem sumSizes_nil : sumSizes [] = 0 := rfl

@[simp] theorem sumSizes_cons (c : Chunk) (l : List Chunk) :
    sumSizes (c :: l) = c.size + sumSizes l := by
  simp [sumSizes]

theorem sumSizes_append (l₁ l₂ : List Chunk) :
    sumSizes (l₁ ++ l₂) = sumSizes l₁ + sumSizes l₂ := by
  simp [sumSizes]

theorem isChain_append (l₁ l₂ : List Chunk) (o : Nat) :
    isChain o (l₁ ++ l₂) ↔ isChain o l₁ ∧ isChain (o + sumSizes l₁) l₂ := by
  induction l₁ generalizing o with
  | nil => simp [isChain]
  | cons c xs ih =>
    show (c.offset = o ∧ isChain (o + c.size) (xs ++ l₂)) ↔
      (c.offset = o ∧ isChain (o + c.size) xs) ∧ isChain (o + sumSizes (c :: xs)) l₂
    rw [ih, sumSizes_cons, ← Nat.add_assoc]
    tauto

theorem size_le_sumSizes {c : Chunk} {cs : List Chunk} (h : c ∈ cs) :
    c.size ≤ sumSizes cs := by
  induction cs with
  | nil => simp at h
  | cons x xs ih =>
    rcases List.mem_cons.mp h with h | h
    · subst h; simp
    · calc c.size ≤ sumSizes xs := ih h
        _ ≤ x.size + sumSizes xs := Nat.le_add_left _ _
        _ = sumSizes (x :: xs) := (sumSizes_cons x xs).symm

theorem noAdjFree_tail {x : Chunk} {l : List Chunk} (h : noAdjFree (x :: l)) :
    noAdjFree l := by
  cases l with
  | nil => trivial
  | cons y ys => exact h.2

theorem noAdjFree_pair (l r : List Chunk) (a b : Chunk)
    (h : noAdjFree (l ++ a :: b :: r)) : a.free = false ∨ b.free = false := by
  induction l with
  | nil => exact h.1
  | cons x xs ih => exact ih (noAdjFree_tail h)

end SlicePool


/-! ## Lemmas about the best-fit selection of `ChunkChain::allocate` -/

namespace SlicePool

theorem bc_cons (s i : Nat) (c : Chunk) (rest : List Chunk) :
    bestCandidate s i (c :: rest) =
      if (c.free && decide (s ≤ c.size)) = true then
        match bestCandidate s (i + 1) rest with
        | none => some (i, c)
        | some (j, d) => if d.size < c.size then some (j, d) else some (i, c)
      else bestCandidate s (i + 1) rest := rfl

theorem bc_cons_pos_none {s : Nat} {c : Chunk} {rest : List Chunk} {i : Nat}
    (h1 : c.free = true) (h2 : s ≤ c.size)
    (htail : bestCandidate s (i + 1) rest = none) :
    bestCandidate s i (c :: rest) = some (i, c) := by
  rw [bc_cons]
  simp [h1, h2, htail]

theorem bc_cons_pos_some {s : Nat} {c d' : Chunk} {rest : List Chunk} {i j' : Nat}
    (h1 : c.free = true) (h2 : s ≤ c.size)
    (htail : bestCandidate s (i + 1) rest = some (j', d')) :
    bestCandidate s i (c :: rest) =
      if d'.size < c.size then some (j', d') else some (i, c) := by
  rw [bc_cons]
  simp [h1, h2, htail]

theorem bc_cons_neg {s : Nat} {c : Chunk} (h : ¬(c.free = true ∧ s ≤ c.size))
    (i : Nat) (rest : List Chunk) :
    bestCandidate s i (c :: rest) = bestCandidate s (i + 1) rest := by
  rw [bc_cons]
  have hb : (c.free && decide (s ≤ c.size)) = false := by
    cases hf : c.free
    · simp
    · simp only [Bool.true_and]
      exact decide_eq_false fun hs => h ⟨hf, hs⟩
  simp [hb]

theorem bc_eq_none_iff (s : Nat) (cs : List Chunk) : ∀ i : Nat,
    (bestCandidate s i cs = none ↔ ∀ c ∈ cs, ¬(c.free = true ∧ s ≤ c.size)) := by
  induction cs with
  | nil => intro i; simp [bestCandidate]
  | cons c rest ih =>
    intro i
    by_cases hcand : c.free = true ∧ s ≤ c.size
    · cases htail : bestCandidate s (i + 1) rest with
      | none =>
        rw [bc_cons_pos_none hcand.1 hcand.2 htail]
        constructor
        · intro h; simp at h
        · intro h; exact absurd hcand (h c (List.mem_cons_self c rest))
      | some jd =>
        obtain ⟨j, d⟩ := jd
        rw [bc_cons_pos_some hcand.1 hcand.2 htail]
        constructor
        · intro h
          by_cases hlt : d.size < c.size <;> simp [hlt] at h
        · intro h; exact absurd hcand (h c (List.mem_cons_self c rest))
    · rw [bc_cons_neg hcand, ih (i + 1)]
      constructor
      · intro h c' hc'
        rcases List.mem_cons.mp hc' with rfl | hmem
        · exact hcand
        · exact h c' hmem
      · intro h c' hc'
        exact h c' (List.mem_cons_of_mem c hc')

theorem bc_sound (s : Nat) (cs : List Chunk) : ∀ i j d,
    bestCandidate s i cs = some (j, d) →
    ∃ k, k < cs.length ∧ j = i + k ∧ cs.getD k default = d ∧
      d.free = true ∧ s ≤ d.size := by
  induction cs with
  | nil => intro i j d h; simp [bestCandidate] at h
  | cons c rest ih =>
    intro i j d h
    by_cases hcand : c.free = true ∧ s ≤ c.size
    · cases htail : bestCandidate s (i + 1) rest with
      | none =>
        rw [bc_cons_pos_none hcand.1 hcand.2 htail] at h
        simp only [Option.some.injEq, Prod.mk.injEq] at h
        obtain ⟨rfl, rfl⟩ := h
        exact ⟨0, by simp, by omega, rfl, hcand.1, hcand.2⟩
      | some jd =>
        obtain ⟨j', d'⟩ := jd
        rw [bc_cons_pos_some hcand.1 hcand.2 htail] at h
        by_cases hlt : d'.size < c.size
        · rw [if_pos hlt] at h
          simp only [Option.some.injEq, Prod.mk.injEq] at h
          obtain ⟨rfl, rfl⟩ := h
          obtain ⟨k, hk, hjk, hgd, hf, hs⟩ := ih (i + 1) j' d' htail
          exact ⟨k + 1, by simpa using hk, by omega, by simpa using hgd, hf, hs⟩
        · rw [if_neg hlt] at h
          simp only [Option.some.injEq, Prod.mk.injEq] at h
          obtain ⟨rfl, rfl⟩ := h
          exact ⟨0, by simp, by omega, rfl, hcand.1, hcand.2⟩
    · rw [bc_cons_neg hcand] at h
      obtain ⟨k, hk, hjk, hgd, hf, hs⟩ := ih (i + 1) j d h
      exact ⟨k + 1, by simpa using hk, by omega, by simpa using hgd, hf, hs⟩

theorem bc_min (s : Nat) (cs : List Chunk) : ∀ i j d,
    bestCandidate s i cs = some (j, d) →
    ∀ k, k < cs.length → (cs.getD k default).free = true →
      s ≤ (cs.getD k default).size → d.size ≤ (cs.getD k default).size := by
  induction cs with
  | nil => intro i j d h; simp [bestCandidate] at h
  | cons c rest ih =>
    intro i j d h k hk hfree hsize
    by_cases hcand : c.free = true ∧ s ≤ c.size
    · cases htail : bestCandidate s (i + 1) rest with
      | none =>
        rw [bc_cons_pos_none hcand.1 hcand.2 htail] at h
        simp only [Option.some.injEq, Prod.mk.injEq] at h
        obtain ⟨rfl, rfl⟩ := h
        cases k with
        | zero => simp
        | succ k' =>
          have hnone := (bc_eq_none_iff s rest (i + 1)).mp htail
          have hmem := getD_mem rest k' default (by simpa using hk)
          exact absurd ⟨by simpa using hfree, by simpa using hsize⟩ (hnone _ hmem)
      | some jd =>
        obtain ⟨j', d'⟩ := jd
        rw [bc_cons_pos_some hcand.1 hcand.2 htail] at h
        by_cases hlt : d'.size < c.size
        · rw [if_pos hlt] at h
          simp only [Option.some.injEq, Prod.mk.injEq] at h
          obtain ⟨rfl, rfl⟩ := h
          cases k with
          | zero => simpa using Nat.le_of_lt hlt
          | succ k' =>
            exact ih (i + 1) _ _ htail k' (by simpa using hk)
              (by simpa using hfree) (by simpa using hsize)
        · rw [if_neg hlt] at h
          simp only [Option.some.injEq, Prod.mk.injEq] at h
          obtain ⟨rfl, rfl⟩ := h
          cases k with
          | zero => simp
          | succ k' =>
            have hle := ih (i + 1) _ _ htail k' (by simpa using hk)
              (by simpa using hfree) (by simpa using hsize)
            simp only [List.getD_cons_succ]
            exact Nat.le_trans (Nat.le_of_not_lt hlt) hle
    · rw [bc_cons_neg hcand] at h
      cases k with
      | zero => exact absurd ⟨by simpa using hfree, by simpa using hsize⟩ hcand
      | succ k' =>
        exact ih (i + 1) _ _ h k' (by simpa using hk)
          (by simpa using hfree) (by simpa using hsize)

theorem bc_first (s : Nat) (cs : List Chunk) : ∀ i j d,
    bestCandidate s i cs = some (j, d) →
    ∀ k, k < cs.length → (cs.getD k default).free = true →
      s ≤ (cs.getD k default).size → (cs.getD k default).size = d.size →
      j ≤ i + k := by
  induction cs with
  | nil => intro i j d h; simp [bestCandidate] at h
  | cons c rest ih =>
    intro i j d h k hk hfree hsize heq
    by_cases hcand : c.free = true ∧ s ≤ c.size
    · cases htail : bestCandidate s (i + 1) rest with
      | none =>
        rw [bc_cons_pos_none hcand.1 hcand.2 htail] at h
        simp only [Option.some.injEq, Prod.mk.injEq] at h
        obtain ⟨rfl, rfl⟩ := h
        omega
      | some jd =>
        obtain ⟨j', d'⟩ := jd
        rw [bc_cons_pos_some hcand.1 hcand.2 htail] at h
        by_cases hlt : d'.size < c.size
        · rw [if_pos hlt] at h
          simp only [Option.some.injEq, Prod.mk.injEq] at h
          obtain ⟨rfl, rfl⟩ := h
          cases k with
          | zero => simp only [List.getD_cons_zero] at heq; omega
          | succ k' =>
            have := ih (i + 1) _ _ htail k' (by simpa using hk)
              (by simpa using hfree) (by simpa using hsize) (by simpa using heq)
            omega
        · rw [if_neg hlt] at h
          simp only [Option.some.injEq, Prod.mk.injEq] at h
          obtain ⟨rfl, rfl⟩ := h
          omega
    · rw [bc_cons_neg hcand] at h
      cases k with
      | zero => exact absurd ⟨by simpa using hfree, by simpa using hsize⟩ hcand
      | succ k' =>
        have := ih (i + 1) _ _ h k' (by simpa using hk)
          (by simpa using hfree) (by simpa using hsize) (by simpa using heq)
        omega

end SlicePool

/-! ## Binary search lemmas -/

namespace SlicePool

@[simp] theorem isChain_nil (o : Nat) : isChain o ([] : List Chunk) := trivial

theorem isChain_cons (o : Nat) (c : Chunk) (rest : List Chunk) :
    isChain o (c :: rest) ↔ c.offset = o ∧ isChain (o + c.size) rest := Iff.rfl

/-- Offsets are strictly increasing (index order implies offset order). -/
def strictSorted (keys : List Nat) : Prop :=
  ∀ a b, a < b → b < keys.length → keys.getD a 0 < keys.getD b 0

namespace ChunkChain

theorem bsGo_succ (keys : List Nat) (t fuel left right : Nat) :
    binarySearchGo keys t (fuel + 1) left right =
      if left < right then
        if keys.getD (left + (right - left) / 2) 0 < t then
          binarySearchGo keys t fuel (left + (right - left) / 2 + 1) right
        else if t < keys.getD (left + (right - left) / 2) 0 then
          binarySearchGo keys t fuel left (left + (right - left) / 2)
        else some (left + (right - left) / 2)
      else none := rfl

theorem binarySearchGo_sound (keys : List Nat) (t : Nat) : ∀ fuel left right i,
    right ≤ keys.length → binarySearchGo keys t fuel left right = some i →
    i < keys.length ∧ keys.getD i 0 = t := by
  intro fuel
  induction fuel with
  | zero => intro l r i _ h; simp [binarySearchGo] at h
  | succ fuel ih =>
    intro l r i hr h
    rw [bsGo_succ] at h
    by_cases hlr : l < r
    · rw [if_pos hlr] at h
      have hmid : l + (r - l) / 2 < r := by
        have := Nat.div_lt_self (by omega : 0 < r - l) (by omega : 1 < 2)
        omega
      by_cases h1 : keys.getD (l + (r - l) / 2) 0 < t
      · rw [if_pos h1] at h
        exact ih _ _ _ hr h
      · rw [if_neg h1] at h
        by_cases h2 : t < keys.getD (l + (r - l) / 2) 0
        · rw [if_pos h2] at h
          exact ih _ _ _ (by omega) h
        · rw [if_neg h2] at h
          simp only [Option.some.injEq] at h
          subst h
          exact ⟨by omega, by omega⟩
    · rw [if_neg hlr] at h
      simp at h

theorem binarySearchGo_complete (keys : List Nat) (t : Nat) (hs : strictSorted keys)
    (i : Nat) (hi : i < keys.length) (hk : keys.getD i 0 = t) : ∀ fuel left right,
    left ≤ i → i < right → right ≤ keys.length → right - left ≤ fuel →
    binarySearchGo keys t fuel left right = some i := by
  intro fuel
  induction fuel with
  | zero => intro l r h1 h2 _ h4; omega
  | succ fuel ih =>
    intro l r h1 h2 h3 h4
    have hlr : l < r := Nat.lt_of_le_of_lt h1 h2
    rw [bsGo_succ, if_pos hlr]
    have hmid1 : l ≤ l + (r - l) / 2 := Nat.le_add_right _ _
    have hmid2 : l + (r - l) / 2 < r := by
      have := Nat.div_lt_self (by omega : 0 < r - l) (by omega : 1 < 2)
      omega
    by_cases hcase : keys.getD (l + (r - l) / 2) 0 < t
    · rw [if_pos hcase]
      have hmi : l + (r - l) / 2 < i := by
        rcases Nat.lt_trichotomy (l + (r - l) / 2) i with h | h | h
        · exact h
        · rw [h, hk] at hcase
          omega
        · have := hs i (l + (r - l) / 2) h (by omega)
          rw [hk] at this
          omega
      exact ih (l + (r - l) / 2 + 1) r (by omega) h2 h3 (by omega)
    · rw [if_neg hcase]
      by_cases hcase2 : t < keys.getD (l + (r - l) / 2) 0
      · rw [if_pos hcase2]
        have him : i < l + (r - l) / 2 := by
          rcases Nat.lt_trichotomy i (l + (r - l) / 2) with h | h | h
          · exact h
          · rw [← h, hk] at hcase2
            omega
          · have := hs (l + (r - l) / 2) i h hi
            rw [hk] at this
            omega
        exact ih l (l + (r - l) / 2) h1 him (by omega) (by omega)
      · rw [if_neg hcase2]
        have heq : keys.getD (l + (r - l) / 2) 0 = t := by omega
        have hmeq : l + (r - l) / 2 = i := by
          rcases Nat.lt_trichotomy (l + (r - l) / 2) i with h | h | h
          · have := hs (l + (r - l) / 2) i h hi
            rw [hk, heq] at this
            omega
          · exact h
          · have := hs i (l + (r - l) / 2) h (by omega)
            rw [hk, heq] at this
            omega
        rw [hmeq]

end ChunkChain

/-! ## Chain implies sorted offsets -/

theorem chain_getD_offset (cs : List Chunk) : ∀ o i, isChain o cs → i < cs.length →
    (cs.getD i default).offset = o + sumSizes (cs.take i) := by
  induction cs with
  | nil => intro o i _ h; simp at h
  | cons c rest ih =>
    intro o i hch hi
    cases i with
    | zero => simpa using hch.1
    | succ i' =>
      have := ih (o + c.size) i' hch.2 (by simpa using hi)
      simp only [List.getD_cons_succ, List.take_succ_cons, sumSizes_cons]
      omega

theorem sum_take_mono (cs : List Chunk) : ∀ a b, a ≤ b →
    sumSizes (cs.take a) ≤ sumSizes (cs.take b) := by
  induction cs with
  | nil => intro a b _; simp
  | cons c rest ih =>
    intro a b hab
    cases a with
    | zero => simp
    | succ a' =>
      cases b with
      | zero => omega
      | succ b' =>
        simp only [List.take_succ_cons, sumSizes_cons]
        have := ih a' b' (by omega)
        omega

theorem sum_take_succ (cs : List Chunk) : ∀ a, a < cs.length →
    sumSizes (cs.take (a + 1)) = sumSizes (cs.take a) + (cs.getD a default).size := by
  induction cs with
  | nil => intro a h; simp at h
  | cons c rest ih =>
    intro a ha
    cases a with
    | zero => simp
    | succ a' =>
      simp only [List.take_succ_cons, sumSizes_cons, List.getD_cons_succ]
      have := ih a' (by simpa using ha)
      omega

theorem chain_strictSorted (cs : List Chunk) (o : Nat) (hch : isChain o cs)
    (hp : allPos cs) : strictSorted (cs.map Chunk.offset) := by
  intro a b hab hb
  rw [List.length_map] at hb
  have ha : a < cs.length := Nat.lt_trans hab hb
  rw [getD_map_offset cs a ha, getD_map_offset cs b hb,
    chain_getD_offset cs o a hch ha, chain_getD_offset cs o b hch hb]
  have h1 : sumSizes (cs.take a) < sumSizes (cs.take (a + 1)) := by
    rw [sum_take_succ cs a ha]
    have := hp _ (getD_mem cs a default ha)
    omega
  have h2 : sumSizes (cs.take (a + 1)) ≤ sumSizes (cs.take b) :=
    sum_take_mono cs (a + 1) b hab
  omega

theorem binarySearchByOffset_finds (cs : List Chunk) (i o' : Nat)
    (hch : isChain o' cs) (hp : allPos cs) (hi : i < cs.length) :
    ChunkChain.binarySearchByOffset cs (cs.getD i default).offset = some i := by
  unfold ChunkChain.binarySearchByOffset
  exact ChunkChain.binarySearchGo_complete (cs.map Chunk.offset) _
    (chain_strictSorted cs o' hch hp) i (by simpa using hi)
    (getD_map_offset cs i hi) cs.length 0 cs.length
    (Nat.zero_le i) hi (by simp) (by omega)

theorem binarySearchByOffset_sound (cs : List Chunk) (o i : Nat)
    (h : ChunkChain.binarySearchByOffset cs o = some i) :
    i < cs.length ∧ (cs.getD i default).offset = o := by
  obtain ⟨h1, h2⟩ := ChunkChain.binarySearchGo_sound (cs.map Chunk.offset) o
    cs.length 0 cs.length i (by simp) h
  rw [List.length_map] at h1
  exact ⟨h1, by rw [← getD_map_offset cs i h1]; exact h2⟩

end SlicePool

/-! ## findIdx? helpers and allocate characterization -/

namespace SlicePool

theorem findIdx?_none_iff {α : Type _} (p : α → Bool) : ∀ (l : List α) (i : Nat),
    (List.findIdx? p l i = none ↔ ∀ x ∈ l, ¬(p x = true)) := by
  intro l
  induction l with
  | nil => intro i; simp
  | cons x xs ih =>
    intro i
    rw [List.findIdx?_cons]
    by_cases hp : p x = true
    · rw [if_pos hp]
      constructor
      · intro h; simp at h
      · intro h; exact absurd hp (h x (List.mem_cons_self x xs))
    · rw [if_neg hp, ih (i + 1)]
      constructor
      · intro h y hy
        rcases List.mem_cons.mp hy with rfl | hmem
        · exact hp
        · exact h y hmem
      · intro h y hy
        exact h y (List.mem_cons_of_mem x hy)

theorem findIdx?_some_pred {α : Type _} (p : α → Bool) : ∀ (l : List α) (i j : Nat),
    List.findIdx? p l i = some j → ∃ x ∈ l, p x = true := by
  intro l
  induction l with
  | nil => intro i j h; simp at h
  | cons x xs ih =>
    intro i j h
    rw [List.findIdx?_cons] at h
    by_cases hp : p x = true
    · exact ⟨x, List.mem_cons_self x xs, hp⟩
    · rw [if_neg hp] at h
      obtain ⟨y, hy, hpy⟩ := ih (i + 1) j h
      exact ⟨y, List.mem_cons_of_mem x hy, hpy⟩

/-- Whenever the selection step finds an index, `ChunkChain::allocate`
succeeds, and the returned chunk's size is the requested size (or the whole
candidate when the candidate is not larger). -/
theorem allocate_some_of_select (cs : List Chunk) (s index : Nat)
    (hsel : selectIndex cs s = some index) (hlen : index < cs.length) :
    ∃ cs' c, ChunkChain.allocate cs s = some (cs', c) ∧
      c.size = (cs.getD index default).size - ((cs.getD index default).size - s) := by
  simp only [ChunkChain.allocate, hsel]
  split_ifs with h1 h2 h3
  · -- surplus, preceding free
    refine ⟨_, _, rfl, ?_⟩
    have hj0 : 0 < index := by
      simp [hasFreeAdjacent] at h2
      exact h2.1
    rw [getD_set_self _ _ _ _ (by simpa using hlen)]
    rw [getD_set_ne _ _ _ _ _ (by omega)]
    rw [getD_set_self _ _ _ _ hlen]
  · -- surplus, following free
    refine ⟨_, _, rfl, ?_⟩
    rw [getD_set_ne _ _ _ _ _ (by omega)]
    rw [getD_set_self _ _ _ _ hlen]
  · -- surplus, fresh chunk inserted
    refine ⟨_, _, rfl, ?_⟩
    have hlen2 : index <
        (List.insertIdx (index + 1) (Chunk.withOffset ((cs.getD index default).size - s)
          ((((cs.set index { cs.getD index default with
              size := (cs.getD index default).size - ((cs.getD index default).size - s)
            }).getD index default)).offset + s))
          (cs.set index { cs.getD index default with
            size := (cs.getD index default).size - ((cs.getD index default).size - s) })).length := by
      rw [List.length_insertIdx _ _ (by simp; omega)]
      simp
      omega
    rw [getD_set_self _ _ _ _ hlen2]
    rw [getD_insertIdx_of_lt _ _ _ _ _ (Nat.lt_succ_self index)]
    rw [getD_set_self _ _ _ _ hlen]
  · -- no surplus
    refine ⟨_, _, rfl, ?_⟩
    rw [getD_set_self _ _ _ _ hlen]
    show (cs.getD index default).size = _
    omega

end SlicePool

/-! ## Claim theorems -/

namespace SlicePool

/-- C1 (code bug): the exclusivity invariant fails on the `ChunkChain` of
`src/sync/mod.rs`.  Starting from the initial size-10 table, the reachable
call sequence allocate 2, allocate 3, release 0, release 2 produces the
table `[(0,5,free), (5,5,free)]`; allocate 3 then returns the chunk
`(0,3)` while leaving its record marked `free = true` (the merge branches
of `allocate` never clear the flag), so a second allocate 3 hands out the
very same range `[0,3)` again while the first handle is still live. -/
theorem c1_exclusivity_code_bug :
    ChunkChain.allocate [Chunk.new 10] 2 =
      some ([⟨0, 2, false⟩, ⟨2, 8, true⟩], ⟨0, 2, false⟩) ∧
    ChunkChain.allocate [⟨0, 2, false⟩, ⟨2, 8, true⟩] 3 =
      some ([⟨0, 2, false⟩, ⟨2, 3, false⟩, ⟨5, 5, true⟩], ⟨2, 3, false⟩) ∧
    ChunkChain.release [⟨0, 2, false⟩, ⟨2, 3, false⟩, ⟨5, 5, true⟩] 0 =
      some [⟨0, 2, true⟩, ⟨2, 3, false⟩, ⟨5, 5, true⟩] ∧
    ChunkChain.release [⟨0, 2, true⟩, ⟨2, 3, false⟩, ⟨5, 5, true⟩] 2 =
      some [⟨0, 5, true⟩, ⟨5, 5, true⟩] ∧
    ChunkChain.allocate [⟨0, 5, true⟩, ⟨5, 5, true⟩] 3 =
      some ([⟨0, 3, true⟩, ⟨3, 7, true⟩], ⟨0, 3, true⟩) ∧
    ChunkChain.allocate [⟨0, 3, true⟩, ⟨3, 7, true⟩] 3 =
      some ([⟨0, 3, false⟩, ⟨3, 7, true⟩], ⟨0, 3, false⟩) := by
  refine ⟨?_, ?_, ?_, ?_, ?_, ?_⟩ <;> decide

/-- C2 (code bug): the no-adjacent-free invariant fails on `ChunkChain`.
The table `[(0,2,free), (2,3,occupied), (5,5,free)]` is reachable from the
initial size-10 table (allocate 2, allocate 3, release 0) and satisfies the
invariant, but releasing offset 2 merges only the preceding neighbor and
leaves `[(0,5,free), (5,5,free)]` — two adjacent free chunks. -/
theorem c2_no_adjacent_free_code_bug :
    Reachable 10 [⟨0, 2, true⟩, ⟨2, 3, false⟩, ⟨5, 5, true⟩] ∧
    noAdjFree [⟨0, 2, true⟩, ⟨2, 3, false⟩, ⟨5, 5, true⟩] ∧
    ChunkChain.release [⟨0, 2, true⟩, ⟨2, 3, false⟩, ⟨5, 5, true⟩] 2 =
      some [⟨0, 5, true⟩, ⟨5, 5, true⟩] ∧
    ¬ noAdjFree [⟨0, 5, true⟩, ⟨5, 5, true⟩] := by
  refine ⟨?_, ?_, ?_, ?_⟩
  · have r1 : Reachable 10 [⟨0, 2, false⟩, ⟨2, 8, true⟩] :=
      Reachable.alloc (by omega)
        Reachable.init
        (by decide : ChunkChain.allocate [Chunk.new 10] 2 =
          some ([⟨0, 2, false⟩, ⟨2, 8, true⟩], ⟨0, 2, false⟩))
    have r2 : Reachable 10 [⟨0, 2, false⟩, ⟨2, 3, false⟩, ⟨5, 5, true⟩] :=
      Reachable.alloc (by omega) r1
        (by decide : ChunkChain.allocate [⟨0, 2, false⟩, ⟨2, 8, true⟩] 3 =
          some ([⟨0, 2, false⟩, ⟨2, 3, false⟩, ⟨5, 5, true⟩], ⟨2, 3, false⟩))
    exact Reachable.rel r2
      (by decide : ChunkChain.release [⟨0, 2, false⟩, ⟨2, 3, false⟩, ⟨5, 5, true⟩] 0 =
        some [⟨0, 2, true⟩, ⟨2, 3, false⟩, ⟨5, 5, true⟩])
  · simp [noAdjFree]
  · decide
  · simp [noAdjFree]

/-- C3 (code bug): no full bilateral coalescing in `ChunkChain::release`.
At the table `[(0,2,free), (2,3,occupied), (5,5,free)]` — an occupied chunk
with free chunks on both sides — releasing offset 2 yields two chunks
instead of the single merged free chunk the spec mandates.  The older
`ChunkableInner::release` of `src/lib.rs` does fold all three into one. -/
theorem c3_bilateral_coalescing_code_bug :
    ChunkChain.release [⟨0, 2, true⟩, ⟨2, 3, false⟩, ⟨5, 5, true⟩] 2 =
      some [⟨0, 5, true⟩, ⟨5, 5, true⟩] ∧
    ChunkableInner.release [⟨0, 2, true⟩, ⟨2, 3, false⟩, ⟨5, 5, true⟩] 2 =
      some [⟨0, 10, true⟩] := by
  refine ⟨?_, ?_⟩ <;> decide

/-- C8 (confirmed): allocate returns the negative result `none` exactly when
no chunk with `free == true` and `size ≥ s` exists (both allocator
variants), and consequently whenever the requested size exceeds the sum of
all chunk sizes — in particular whenever `s` exceeds the covered total.
Both embedded functions are total, mirroring panic-freedom of the source
for in-bounds bookkeeping. -/
theorem c8_allocate_none_iff (cs : List Chunk) (s : Nat) :
    (ChunkChain.allocate cs s = none ↔ ∀ c ∈ cs, ¬(c.free = true ∧ s ≤ c.size)) ∧
    (ChunkableInner.allocate cs s = none ↔ ∀ c ∈ cs, ¬(c.free = true ∧ s ≤ c.size)) ∧
    (sumSizes cs < s →
      ChunkChain.allocate cs s = none ∧ ChunkableInner.allocate cs s = none) := by
  have hchain : ChunkChain.allocate cs s = none ↔
      ∀ c ∈ cs, ¬(c.free = true ∧ s ≤ c.size) := by
    cases hbc : bestCandidate s 0 cs with
    | none =>
      have hsel : selectIndex cs s = none := by simp [selectIndex, hbc]
      simp only [ChunkChain.allocate, hsel]
      simpa using (bc_eq_none_iff s cs 0).mp hbc
    | some jd =>
      obtain ⟨j, d⟩ := jd
      have hsel : selectIndex cs s = some j := by simp [selectIndex, hbc]
      obtain ⟨k, hk, hjk, hgd, hdf, hds⟩ := bc_sound s cs 0 j d hbc
      obtain ⟨cs', c, hsome, _⟩ :=
        allocate_some_of_select cs s j hsel (by omega)
      rw [hsome]
      constructor
      · intro h; simp at h
      · intro h
        have hdm : d ∈ cs := by
          rw [← hgd]; exact getD_mem cs k default hk
        exact absurd ⟨hdf, hds⟩ (h d hdm)
  have hinner : ChunkableInner.allocate cs s = none ↔
      ∀ c ∈ cs, ¬(c.free = true ∧ s ≤ c.size) := by
    cases hfi : cs.findIdx? (fun chunk => chunk.free && decide (s ≤ chunk.size)) with
    | none =>
      simp only [ChunkableInner.allocate, hfi]
      have := (findIdx?_none_iff (fun chunk : Chunk =>
        chunk.free && decide (s ≤ chunk.size)) cs 0).mp hfi
      constructor
      · intro _ c hc
        intro hcand
        exact this c hc (by simp [hcand.1, hcand.2])
      · intro _; trivial
    | some index =>
      simp only [ChunkableInner.allocate, hfi]
      constructor
      · intro h
        exfalso
        split at h <;> exact Option.noConfusion h
      · intro h
        obtain ⟨x, hx, hpx⟩ := findIdx?_some_pred _ cs 0 index hfi
        simp only [Bool.and_eq_true, decide_eq_true_eq] at hpx
        exact absurd hpx (by simpa using h x hx)
  refine ⟨hchain, hinner, ?_⟩
  intro hlt
  have hnone : ∀ c ∈ cs, ¬(c.free = true ∧ s ≤ c.size) := by
    intro c hc hcand
    have := size_le_sumSizes hc
    omega
  exact ⟨hchain.mpr hnone, hinner.mpr hnone⟩

/-- C9 (confirmed): releasing an offset that is not the offset of any chunk
record fails fatally in both variants — `ChunkChain::release` panics via
`.expect("releasing chunk")` after the binary search misses, and
`ChunkableInner::release` panics via `.unwrap()`; the embedding models both
panics as `none`, and neither function mutates the table in that case. -/
theorem c9_release_unknown_offset_panics (cs : List Chunk) (o : Nat)
    (h : ∀ c ∈ cs, c.offset ≠ o) :
    ChunkChain.release cs o = none ∧ ChunkableInner.release cs o = none := by
  constructor
  · cases hbs : ChunkChain.binarySearchByOffset cs o with
    | none => simp [ChunkChain.release, hbs]
    | some index =>
      obtain ⟨hlen, hoff⟩ := binarySearchByOffset_sound cs o index hbs
      exact absurd hoff (h _ (getD_mem cs index default hlen))
  · cases hf : cs.findIdx? (fun chunk => chunk.offset == o) with
    | none => simp [ChunkableInner.release, hf]
    | some index =>
      obtain ⟨x, hx, hpx⟩ := findIdx?_some_pred _ cs 0 index hf
      rw [beq_iff_eq] at hpx
      exact absurd hpx (h x hx)

/-- C10 (confirmed): whenever at least one free chunk exists, a request of
size 0 is not rejected: both allocator variants return a zero-length
allocation (`some` with a chunk of size 0) rather than `none`. -/
theorem c10_zero_size_allocation (cs : List Chunk)
    (hfree : ∃ c ∈ cs, c.free = true) :
    (∃ r, ChunkChain.allocate cs 0 = some r ∧ r.2.size = 0) ∧
    (∃ r, ChunkableInner.allocate cs 0 = some r ∧ r.2.size = 0) := by
  obtain ⟨c0, hc0, hc0f⟩ := hfree
  constructor
  · cases hbc : bestCandidate 0 0 cs with
    | none =>
      exact absurd ⟨hc0f, Nat.zero_le _⟩ ((bc_eq_none_iff 0 cs 0).mp hbc c0 hc0)
    | some jd =>
      obtain ⟨j, d⟩ := jd
      have hsel : selectIndex cs 0 = some j := by simp [selectIndex, hbc]
      obtain ⟨k, hk, hjk, hgd, _, _⟩ := bc_sound 0 cs 0 j d hbc
      obtain ⟨cs', c, hsome, hsize⟩ :=
        allocate_some_of_select cs 0 j hsel (by omega)
      refine ⟨(cs', c), hsome, ?_⟩
      show c.size = 0
      omega
  · cases hfi : cs.findIdx? (fun chunk => chunk.free && decide (0 ≤ chunk.size)) with
    | none =>
      have := (findIdx?_none_iff (fun chunk : Chunk =>
        chunk.free && decide (0 ≤ chunk.size)) cs 0).mp hfi
      exact absurd (by simp [hc0f]) (this c0 hc0)
    | some index =>
      simp only [ChunkableInner.allocate, hfi]
      by_cases hd : 0 < (cs.getD index default).size - 0
      · rw [if_pos hd]
        refine ⟨_, rfl, ?_⟩
        show (cs.getD index default).size - ((cs.getD index default).size - 0) = 0
        omega
      · rw [if_neg hd]
        refine ⟨_, rfl, ?_⟩
        show (cs.getD index default).size - ((cs.getD index default).size - 0) = 0
        omega

/-- Witness for the C8 theorem at a concrete input: a pool whose only chunk
has size 4 rejects a request of size 5 in both variants. -/
theorem c8_allocate_none_iff_witness :
    ChunkChain.allocate [⟨0, 4, true⟩] 5 = none ∧
    ChunkableInner.allocate [⟨0, 4, true⟩] 5 = none :=
  (c8_allocate_none_iff [⟨0, 4, true⟩] 5).2.2 (by decide)

/-- Witness for the C9 theorem at a concrete input: offset 5 names no chunk
of the single-chunk table, so both releases panic. -/
theorem c9_release_unknown_offset_panics_witness :
    ChunkChain.release [⟨0, 10, true⟩] 5 = none ∧
    ChunkableInner.release [⟨0, 10, true⟩] 5 = none :=
  c9_release_unknown_offset_panics [⟨0, 10, true⟩] 5 (by decide)

/-- Witness for the C10 theorem at a concrete input. -/
theorem c10_zero_size_allocation_witness :
    (∃ r, ChunkChain.allocate [⟨0, 10, true⟩] 0 = some r ∧ r.2.size = 0) ∧
    (∃ r, ChunkableInner.allocate [⟨0, 10, true⟩] 0 = some r ∧ r.2.size = 0) :=
  c10_zero_size_allocation [⟨0, 10, true⟩] ⟨⟨0, 10, true⟩, by decide, rfl⟩

end SlicePool

namespace SlicePool

/-- C4 counterexample: the claim fails on the `ChunkableInner::allocate` of
`src/lib.rs`, which uses first fit (`position`), not best fit.  At the
invariant-satisfying table `[(0,10,free), (10,1,occupied), (11,3,free)]` a
request of size 3 is carved out of the size-10 chunk at offset 0 — the
first fitting chunk — even though the free chunk at offset 11 has the
minimal qualifying size 3; the claim says the size-10 chunk is never
selected. -/
theorem c4_best_fit_counterexample :
    isChain 0 [⟨0, 10, true⟩, ⟨10, 1, false⟩, ⟨11, 3, true⟩] ∧
    noAdjFree [⟨0, 10, true⟩, ⟨10, 1, false⟩, ⟨11, 3, true⟩] ∧
    ((⟨11, 3, true⟩ : Chunk).free = true ∧ 3 ≤ (⟨11, 3, true⟩ : Chunk).size ∧
      (⟨11, 3, true⟩ : Chunk).size < (⟨0, 10, true⟩ : Chunk).size) ∧
    ChunkableInner.allocate [⟨0, 10, true⟩, ⟨10, 1, false⟩, ⟨11, 3, true⟩] 3 =
      some ([⟨0, 3, false⟩, ⟨3, 7, true⟩, ⟨10, 1, false⟩, ⟨11, 3, true⟩],
        ⟨0, 3, false⟩) := by
  refine ⟨by simp [isChain], by simp [noAdjFree], by decide, by decide⟩

/-- C4 (amended): best-fit selection holds for the current allocator,
`ChunkChain::allocate` of `src/sync/mod.rs`: whenever allocation succeeds,
the selected index names a free chunk of sufficient size whose size is
minimal among all free chunks of sufficient size.  The historical
`ChunkableInner::allocate` of `src/lib.rs` instead uses first fit. -/
theorem c4_best_fit_chunkchain (cs : List Chunk) (s : Nat)
    (r : List Chunk × Chunk) (h : ChunkChain.allocate cs s = some r) :
    ∃ index, selectIndex cs s = some index ∧ index < cs.length ∧
      (cs.getD index default).free = true ∧ s ≤ (cs.getD index default).size ∧
      ∀ k, k < cs.length → (cs.getD k default).free = true →
        s ≤ (cs.getD k default).size →
        (cs.getD index default).size ≤ (cs.getD k default).size := by
  cases hbc : bestCandidate s 0 cs with
  | none =>
    have hsel : selectIndex cs s = none := by simp [selectIndex, hbc]
    rw [ChunkChain.allocate, hsel] at h
    exact Option.noConfusion h
  | some jd =>
    obtain ⟨j, d⟩ := jd
    have hsel : selectIndex cs s = some j := by simp [selectIndex, hbc]
    obtain ⟨k, hk, hjk, hgd, hdf, hds⟩ := bc_sound s cs 0 j d hbc
    have hjlen : j < cs.length := by omega
    have hgdj : cs.getD j default = d := by
      rw [show j = k by omega]
      exact hgd
    refine ⟨j, hsel, hjlen, by rw [hgdj]; exact hdf, by rw [hgdj]; exact hds, ?_⟩
    intro k' hk' hfree hsize
    rw [hgdj]
    exact bc_min s cs 0 j d hbc k' hk' hfree hsize

/-- Witness for the amended C4 theorem: with free chunks of sizes 10 and 3
and a request of size 3, `ChunkChain` selects the size-3 chunk. -/
theorem c4_best_fit_chunkchain_witness :
    ∃ index, selectIndex [⟨0, 10, true⟩, ⟨10, 1, false⟩, ⟨11, 3, true⟩] 3 =
        some index ∧
      index < ([⟨0, 10, true⟩, ⟨10, 1, false⟩, ⟨11, 3, true⟩] : List Chunk).length ∧
      (([⟨0, 10, true⟩, ⟨10, 1, false⟩, ⟨11, 3, true⟩] : List Chunk).getD index
        default).free = true ∧
      3 ≤ (([⟨0, 10, true⟩, ⟨10, 1, false⟩, ⟨11, 3, true⟩] : List Chunk).getD index
        default).size ∧
      ∀ k, k < ([⟨0, 10, true⟩, ⟨10, 1, false⟩, ⟨11, 3, true⟩] : List Chunk).length →
        (([⟨0, 10, true⟩, ⟨10, 1, false⟩, ⟨11, 3, true⟩] : List Chunk).getD k
          default).free = true →
        3 ≤ (([⟨0, 10, true⟩, ⟨10, 1, false⟩, ⟨11, 3, true⟩] : List Chunk).getD k
          default).size →
        (([⟨0, 10, true⟩, ⟨10, 1, false⟩, ⟨11, 3, true⟩] : List Chunk).getD index
          default).size ≤
        (([⟨0, 10, true⟩, ⟨10, 1, false⟩, ⟨11, 3, true⟩] : List Chunk).getD k
          default).size :=
  c4_best_fit_chunkchain [⟨0, 10, true⟩, ⟨10, 1, false⟩, ⟨11, 3, true⟩] 3
    ([⟨0, 10, true⟩, ⟨10, 1, false⟩, ⟨11, 3, false⟩], ⟨11, 3, false⟩) (by decide)

/-- C5 (confirmed): tie-break by lowest offset.  On any contiguous table,
when `ChunkChain::allocate` selects an index, every free chunk of
sufficient size whose size equals the selected chunk's size sits at an
offset no smaller than the selected chunk's offset (Rust's `min_by_key`
returns the first among equal minima, and the table is in offset order). -/
theorem c5_tie_break_lowest_offset (cs : List Chunk) (s index o : Nat)
    (hch : isChain o cs) (hsel : selectIndex cs s = some index) :
    ∀ k, k < cs.length → (cs.getD k default).free = true →
      s ≤ (cs.getD k default).size →
      (cs.getD k default).size = (cs.getD index default).size →
      (cs.getD index default).offset ≤ (cs.getD k default).offset := by
  cases hbc : bestCandidate s 0 cs with
  | none => simp [selectIndex, hbc] at hsel
  | some jd =>
    obtain ⟨j, d⟩ := jd
    have hj : j = index := by
      simp [selectIndex, hbc] at hsel
      exact hsel
    subst hj
    obtain ⟨k0, hk0, hjk0, hgd, _, _⟩ := bc_sound s cs 0 j d hbc
    have hjlen : j < cs.length := by omega
    have hgdj : cs.getD j default = d := by
      rw [show j = k0 by omega]
      exact hgd
    intro k hk hfree hsize heq
    have hle : j ≤ k := by
      have := bc_first s cs 0 j d hbc k hk hfree hsize (by rw [← hgdj]; exact heq)
      omega
    rcases Nat.eq_or_lt_of_le hle with rfl | hlt
    · exact Nat.le_refl _
    · rw [chain_getD_offset cs o j hch hjlen, chain_getD_offset cs o k hch hk]
      have := sum_take_mono cs j k (Nat.le_of_lt hlt)
      omega

/-- Witness for the C5 theorem: two free chunks of size 3 at offsets 0 and
5; the selection picks offset 0, which is no larger than offset 5. -/
theorem c5_tie_break_lowest_offset_witness :
    (([⟨0, 3, true⟩, ⟨3, 2, false⟩, ⟨5, 3, true⟩] : List Chunk).getD 0
      default).offset ≤
    (([⟨0, 3, true⟩, ⟨3, 2, false⟩, ⟨5, 3, true⟩] : List Chunk).getD 2
      default).offset :=
  c5_tie_break_lowest_offset [⟨0, 3, true⟩, ⟨3, 2, false⟩, ⟨5, 3, true⟩] 3 0 0
    (by simp [isChain]) (by decide) 2 (by decide) (by decide) (by decide)
    (by decide)

end SlicePool

/-! ## Second-position list helpers and chain splicing -/

namespace SlicePool

variable {α : Type _}

theorem getD_append_len_succ (l₁ l₂ : List α) (a b d : α) :
    (l₁ ++ a :: b :: l₂).getD (l₁.length + 1) d = b := by
  induction l₁ with
  | nil => rfl
  | cons x xs ih => simpa using ih

theorem set_append_len_succ (l₁ l₂ : List α) (a b x : α) :
    (l₁ ++ a :: b :: l₂).set (l₁.length + 1) x = l₁ ++ a :: x :: l₂ := by
  induction l₁ with
  | nil => rfl
  | cons y ys ih => simp [ih]

theorem eraseIdx_append_len_succ (l₁ l₂ : List α) (a b : α) :
    (l₁ ++ a :: b :: l₂).eraseIdx (l₁.length + 1) = l₁ ++ a :: l₂ := by
  have := eraseIdx_append_len (l₁ ++ [a]) l₂ b
  simpa [List.append_assoc] using this

theorem insertIdx_append_len_succ (l₁ l₂ : List α) (a x : α) :
    List.insertIdx (l₁.length + 1) x (l₁ ++ a :: l₂) = l₁ ++ a :: x :: l₂ := by
  have := insertIdx_append_len (l₁ ++ [a]) l₂ x
  simpa [List.append_assoc] using this

/-- Replacing a middle segment by one of equal total size that chains from
the same base offset preserves the table invariants. -/
theorem isChain_splice (o : Nat) (l₁ l₂ mid mid' : List Chunk)
    (h : isChain o (l₁ ++ (mid ++ l₂)))
    (hsum : sumSizes mid' = sumSizes mid)
    (hmid : ∀ b, isChain b mid → isChain b mid') :
    isChain o (l₁ ++ (mid' ++ l₂)) ∧
    sumSizes (l₁ ++ (mid' ++ l₂)) = sumSizes (l₁ ++ (mid ++ l₂)) := by
  rw [isChain_append, isChain_append] at h
  obtain ⟨h1, h2, h3⟩ := h
  constructor
  · rw [isChain_append, isChain_append]
    refine ⟨h1, hmid _ h2, ?_⟩
    rw [hsum]
    exact h3
  · rw [sumSizes_append, sumSizes_append, sumSizes_append, sumSizes_append, hsum]

end SlicePool


/-! ## Preservation of contiguity and coverage (ChunkChain) -/

namespace SlicePool

theorem allocate_preserves (cs cs' : List Chunk) (c : Chunk) (s o : Nat)
    (hch : isChain o cs) (h : ChunkChain.allocate cs s = some (cs', c)) :
    isChain o cs' ∧ sumSizes cs' = sumSizes cs ∧ cs' ≠ [] := by
  cases hbc : bestCandidate s 0 cs with
  | none =>
    have hsel : selectIndex cs s = none := by simp [selectIndex, hbc]
    rw [ChunkChain.allocate, hsel] at h
    exact Option.noConfusion h
  | some jd =>
    obtain ⟨j, d⟩ := jd
    have hsel : selectIndex cs s = some j := by simp [selectIndex, hbc]
    obtain ⟨k0, hk0, hjk0, hgd0, hdf, hds⟩ := bc_sound s cs 0 j d hbc
    have hjlen : j < cs.length := by omega
    have hgdj : cs.getD j default = d := by
      rw [show j = k0 by omega]
      exact hgd0
    obtain ⟨l₁, l₂, hdec, hlen₁⟩ := exists_decomp cs j default hjlen
    rw [hgdj] at hdec
    subst hdec
    subst hlen₁
    simp only [ChunkChain.allocate, hsel, getD_append_len, set_append_len] at h
    split_ifs at h with hd hpre hfol
    · -- surplus, preceding free
      have hl1 : 0 < l₁.length := by
        simp [hasFreeAdjacent] at hpre
        exact hpre.1
      obtain ⟨l₁', p, rfl⟩ : ∃ l₁' p, l₁ = l₁' ++ [p] := by
        rcases List.eq_nil_or_concat l₁ with h0 | ⟨l₁', p, h0⟩
        · subst h0; simp at hl1
        · exact ⟨l₁', p, by simpa [List.concat_eq_append] using h0⟩
      simp only [List.append_assoc, List.singleton_append, List.length_append,
        List.length_singleton, Nat.add_sub_cancel, getD_append_len,
        set_append_len, getD_append_len_succ, set_append_len_succ] at h
      simp only [Option.some.injEq, Prod.mk.injEq] at h
      obtain ⟨rfl, rfl⟩ := h
      have hch' : isChain o (l₁' ++ ([p, d] ++ l₂)) := by
        simpa [List.append_assoc] using hch
      have hmid : ∀ b, isChain b [p, d] → isChain b
          [{ p with size := p.size + (d.size - s) },
           { offset := d.offset + (d.size - s),
             size := d.size - (d.size - s), free := d.free }] := by
        intro b hb
        simp only [isChain] at hb ⊢
        obtain ⟨hb1, hb2, _⟩ := hb
        refine ⟨by simpa using hb1, by omega, trivial⟩
      obtain ⟨hA, hB⟩ := isChain_splice o l₁' l₂ [p, d]
        [{ p with size := p.size + (d.size - s) },
         { offset := d.offset + (d.size - s),
           size := d.size - (d.size - s), free := d.free }]
        hch' (by simp [sumSizes]; omega) hmid
      exact ⟨by simpa [List.append_assoc] using hA,
        by simpa [List.append_assoc] using hB, by simp⟩
    · -- surplus, following free
      have hl2 : 0 < l₂.length := by
        simp [hasFreeAdjacent] at hfol
        omega
      obtain ⟨n, l₂', rfl⟩ : ∃ n l₂', l₂ = n :: l₂' := by
        cases l₂ with
        | nil => simp at hl2
        | cons n l₂' => exact ⟨n, l₂', rfl⟩
      simp only [getD_append_len, set_append_len, getD_append_len_succ,
        set_append_len_succ] at h
      simp only [Option.some.injEq, Prod.mk.injEq] at h
      obtain ⟨rfl, rfl⟩ := h
      have hch' : isChain o (l₁ ++ ([d, n] ++ l₂')) := by simpa using hch
      have hmid : ∀ b, isChain b [d, n] → isChain b
          [{ d with size := d.size - (d.size - s) },
           { offset := n.offset - (d.size - s),
             size := n.size + (d.size - s), free := n.free }] := by
        intro b hb
        simp only [isChain] at hb ⊢
        obtain ⟨hb1, hb2, _⟩ := hb
        refine ⟨by simpa using hb1, by omega, trivial⟩
      obtain ⟨hA, hB⟩ := isChain_splice o l₁ l₂' [d, n]
        [{ d with size := d.size - (d.size - s) },
         { offset := n.offset - (d.size - s),
           size := n.size + (d.size - s), free := n.free }]
        hch' (by simp [sumSizes]; omega) hmid
      exact ⟨by simpa using hA, by simpa using hB, by simp⟩
    · -- surplus, fresh chunk inserted
      simp only [getD_append_len, set_append_len, insertIdx_append_len_succ,
        getD_append_len_succ, Chunk.withOffset] at h
      simp only [Option.some.injEq, Prod.mk.injEq] at h
      obtain ⟨rfl, rfl⟩ := h
      have hch' : isChain o (l₁ ++ ([d] ++ l₂)) := by simpa using hch
      have hmid : ∀ b, isChain b [d] → isChain b
          [{ offset := d.offset, size := d.size - (d.size - s), free := false },
           { offset := d.offset + s, size := d.size - s, free := true }] := by
        intro b hb
        simp only [isChain] at hb ⊢
        obtain ⟨hb1, _⟩ := hb
        refine ⟨by simpa using hb1, by omega, trivial⟩
      obtain ⟨hA, hB⟩ := isChain_splice o l₁ l₂ [d]
        [{ offset := d.offset, size := d.size - (d.size - s), free := false },
         { offset := d.offset + s, size := d.size - s, free := true }]
        hch' (by simp [sumSizes]) hmid
      exact ⟨by simpa using hA, by simpa using hB, by simp⟩
    · -- no surplus
      simp only [Option.some.injEq, Prod.mk.injEq] at h
      obtain ⟨rfl, rfl⟩ := h
      have hch' : isChain o (l₁ ++ ([d] ++ l₂)) := by simpa using hch
      have hmid : ∀ b, isChain b [d] → isChain b [{ d with free := false }] := by
        intro b hb
        simp only [isChain] at hb ⊢
        obtain ⟨hb1, _⟩ := hb
        exact ⟨by simpa using hb1, trivial⟩
      obtain ⟨hA, hB⟩ := isChain_splice o l₁ l₂ [d]
        [{ d with free := false }] hch' (by simp [sumSizes]) hmid
      exact ⟨by simpa using hA, by simpa using hB, by simp⟩

end SlicePool

namespace SlicePool

theorem release_preserves (cs cs' : List Chunk) (o ro : Nat)
    (hch : isChain o cs) (h : ChunkChain.release cs ro = some cs') :
    isChain o cs' ∧ sumSizes cs' = sumSizes cs ∧ cs' ≠ [] := by
  cases hbs : ChunkChain.binarySearchByOffset cs ro with
  | none =>
    rw [ChunkChain.release, hbs] at h
    exact Option.noConfusion h
  | some index =>
    obtain ⟨hlen, hoff⟩ := binarySearchByOffset_sound cs ro index hbs
    obtain ⟨l₁, l₂, hdec, hlen₁⟩ := exists_decomp cs index default hlen
    obtain ⟨d, hd⟩ : ∃ x, cs.getD index default = x := ⟨_, rfl⟩
    rw [hd] at hdec
    subst hlen₁
    subst hdec
    simp only [ChunkChain.release, hbs, getD_append_len] at h
    split_ifs at h with hpre hfol
    · -- preceding free
      have hl1 : 0 < l₁.length := by
        simp [hasFreeAdjacent] at hpre
        exact hpre.1
      obtain ⟨l₁', p, rfl⟩ : ∃ l₁' p, l₁ = l₁' ++ [p] := by
        rcases List.eq_nil_or_concat l₁ with h0 | ⟨l₁', p, h0⟩
        · subst h0; simp at hl1
        · exact ⟨l₁', p, by simpa [List.concat_eq_append] using h0⟩
      simp only [List.append_assoc, List.singleton_append, List.length_append,
        List.length_singleton, Nat.add_sub_cancel, getD_append_len,
        set_append_len, eraseIdx_append_len_succ] at h
      simp only [Option.some.injEq] at h
      subst h
      have hch' : isChain o (l₁' ++ ([p, d] ++ l₂)) := by
        simpa [List.append_assoc] using hch
      have hmid : ∀ b, isChain b [p, d] →
          isChain b [{ p with size := p.size + d.size }] := by
        intro b hb
        simp only [isChain] at hb ⊢
        exact ⟨by simpa using hb.1, trivial⟩
      obtain ⟨hA, hB⟩ := isChain_splice o l₁' l₂ [p, d]
        [{ p with size := p.size + d.size }] hch' (by simp [sumSizes]) hmid
      exact ⟨by simpa using hA, by simpa [List.append_assoc] using hB, by simp⟩
    · -- following free
      have hl2 : 0 < l₂.length := by
        simp [hasFreeAdjacent] at hfol
        omega
      obtain ⟨n, l₂', rfl⟩ : ∃ n l₂', l₂ = n :: l₂' := by
        cases l₂ with
        | nil => simp at hl2
        | cons n l₂' => exact ⟨n, l₂', rfl⟩
      simp only [getD_append_len, getD_append_len_succ, set_append_len_succ,
        eraseIdx_append_len] at h
      simp only [Option.some.injEq] at h
      subst h
      have hch' : isChain o (l₁ ++ ([d, n] ++ l₂')) := by simpa using hch
      have hmid : ∀ b, isChain b [d, n] →
          isChain b
            [{ offset := n.offset - d.size,
               size := n.size + d.size, free := n.free }] := by
        intro b hb
        simp only [isChain] at hb ⊢
        obtain ⟨hb1, hb2, _⟩ := hb
        refine ⟨by omega, trivial⟩
      obtain ⟨hA, hB⟩ := isChain_splice o l₁ l₂' [d, n]
        [{ offset := n.offset - d.size,
           size := n.size + d.size, free := n.free }]
        hch' (by simp [sumSizes]; omega) hmid
      exact ⟨by simpa using hA, by simpa using hB, by simp⟩
    · -- mark free in place
      simp only [set_append_len, Option.some.injEq] at h
      subst h
      have hch' : isChain o (l₁ ++ ([d] ++ l₂)) := by simpa using hch
      have hmid : ∀ b, isChain b [d] →
          isChain b [{ d with free := true }] := by
        intro b hb
        simp only [isChain] at hb ⊢
        exact ⟨by simpa using hb.1, trivial⟩
      obtain ⟨hA, hB⟩ := isChain_splice o l₁ l₂ [d]
        [{ d with free := true }] hch' (by simp [sumSizes]) hmid
      exact ⟨by simpa using hA, by simpa using hB, by simp⟩

/-- Every table reachable by `ChunkChain` operations is a contiguous chain
from offset 0 covering exactly `total` indices, and is nonempty. -/
theorem reachable_invariant (total : Nat) (cs : List Chunk)
    (h : Reachable total cs) :
    isChain 0 cs ∧ sumSizes cs = total ∧ cs ≠ [] := by
  induction h with
  | init => exact ⟨⟨rfl, trivial⟩, by simp [Chunk.new, sumSizes], by simp⟩
  | alloc hs hr ha ih =>
    obtain ⟨h1, h2, h3⟩ := allocate_preserves _ _ _ _ _ ih.1 ha
    exact ⟨h1, by rw [h2]; exact ih.2.1, h3⟩
  | rel hr hrel ih =>
    obtain ⟨h1, h2, h3⟩ := release_preserves _ _ _ _ ih.1 hrel
    exact ⟨h1, by rw [h2]; exact ih.2.1, h3⟩

end SlicePool

namespace SlicePool

/-- C7 (confirmed): in every state reachable by `ChunkChain` allocate
(positive size) and release calls from the initial one-free-chunk table,
the chunk records are contiguous (`chunk[i].offset + chunk[i].size =
chunk[i+1].offset`), start at offset 0, end at `total`, are sorted by
offset, and the table is never empty. -/
theorem c7_contiguity_coverage (total : Nat) (cs : List Chunk)
    (h : Reachable total cs) :
    cs ≠ [] ∧
    (∀ i, i + 1 < cs.length →
      (cs.getD (i + 1) default).offset =
        (cs.getD i default).offset + (cs.getD i default).size) ∧
    (cs.getD 0 default).offset = 0 ∧
    (cs.getD (cs.length - 1) default).offset +
      (cs.getD (cs.length - 1) default).size = total ∧
    (∀ i j, i ≤ j → j < cs.length →
      (cs.getD i default).offset ≤ (cs.getD j default).offset) := by
  obtain ⟨hch, hsum, hne⟩ := reachable_invariant total cs h
  have hlen : 0 < cs.length := List.length_pos.mpr hne
  refine ⟨hne, ?_, ?_, ?_, ?_⟩
  · intro i hi
    rw [chain_getD_offset cs 0 (i + 1) hch hi,
      chain_getD_offset cs 0 i hch (by omega),
      sum_take_succ cs i (by omega)]
    omega
  · rw [chain_getD_offset cs 0 0 hch hlen]
    simp
  · rw [chain_getD_offset cs 0 (cs.length - 1) hch (by omega)]
    have hstep := sum_take_succ cs (cs.length - 1) (by omega)
    rw [show cs.length - 1 + 1 = cs.length from by omega, List.take_length] at hstep
    omega
  · intro i j hij hj
    rw [chain_getD_offset cs 0 i hch (by omega),
      chain_getD_offset cs 0 j hch hj]
    have := sum_take_mono cs i j hij
    omega

/-- Witness for the C7 theorem at the initial table of size 7. -/
theorem c7_contiguity_coverage_witness :
    ([Chunk.new 7] : List Chunk) ≠ [] ∧
    (∀ i, i + 1 < ([Chunk.new 7] : List Chunk).length →
      (([Chunk.new 7] : List Chunk).getD (i + 1) default).offset =
        (([Chunk.new 7] : List Chunk).getD i default).offset +
        (([Chunk.new 7] : List Chunk).getD i default).size) ∧
    (([Chunk.new 7] : List Chunk).getD 0 default).offset = 0 ∧
    (([Chunk.new 7] : List Chunk).getD
        (([Chunk.new 7] : List Chunk).length - 1) default).offset +
      (([Chunk.new 7] : List Chunk).getD
        (([Chunk.new 7] : List Chunk).length - 1) default).size = 7 ∧
    (∀ i j, i ≤ j → j < ([Chunk.new 7] : List Chunk).length →
      (([Chunk.new 7] : List Chunk).getD i default).offset ≤
        (([Chunk.new 7] : List Chunk).getD j default).offset) :=
  c7_contiguity_coverage 7 [Chunk.new 7] Reachable.init

end SlicePool

/-! ## Round-trip: allocate then release restores the table -/

namespace SlicePool

theorem hfa_preceding_false (l₁ rest : List Chunk)
    (hlast : ∀ l₁' p, l₁ = l₁' ++ [p] → p.free = false) :
    hasFreeAdjacent (l₁ ++ rest) l₁.length Order.preceding = false := by
  rcases List.eq_nil_or_concat l₁ with rfl | ⟨l₁', p, hp⟩
  · simp [hasFreeAdjacent]
  · have hpf := hlast l₁' p (by simpa [List.concat_eq_append] using hp)
    subst hp
    simp only [hasFreeAdjacent, List.concat_eq_append, List.append_assoc,
      List.singleton_append, List.length_append, List.length_singleton,
      Nat.add_sub_cancel, getD_append_len, hpf, Bool.and_false]

theorem hfa_following_of (l₁ l₂ : List Chunk) (a n : Chunk) :
    hasFreeAdjacent (l₁ ++ a :: n :: l₂) l₁.length Order.following = n.free := by
  have hlt : l₁.length + 1 < (l₁ ++ a :: n :: l₂).length := by simp
  show (decide (l₁.length + 1 < (l₁ ++ a :: n :: l₂).length) &&
    ((l₁ ++ a :: n :: l₂).getD (l₁.length + 1) default).free) = n.free
  rw [getD_append_len_succ, decide_eq_true hlt, Bool.true_and]

theorem hfa_following_false (l₁ l₂ : List Chunk) (a : Chunk)
    (hhead : ∀ n l₂', l₂ = n :: l₂' → n.free = false) :
    hasFreeAdjacent (l₁ ++ a :: l₂) l₁.length Order.following = false := by
  cases l₂ with
  | nil => simp [hasFreeAdjacent]
  | cons n l₂' =>
    rw [hfa_following_of]
    exact hhead n l₂' rfl

/-- C6 (confirmed): on a table satisfying the invariants (contiguity from 0,
positive sizes, no adjacent free chunks), a successful `ChunkChain`
allocation of positive size followed immediately by releasing the returned
offset restores the table exactly (same chunk count and boundaries). -/
theorem c6_round_trip (cs : List Chunk) (s : Nat) (cs' : List Chunk) (c : Chunk)
    (hs : 0 < s) (hch : isChain 0 cs) (hp : allPos cs) (hnaf : noAdjFree cs)
    (h : ChunkChain.allocate cs s = some (cs', c)) :
    ChunkChain.release cs' c.offset = some cs := by
  cases hbc : bestCandidate s 0 cs with
  | none =>
    have hsel : selectIndex cs s = none := by simp [selectIndex, hbc]
    rw [ChunkChain.allocate, hsel] at h
    exact Option.noConfusion h
  | some jd =>
    obtain ⟨j, d⟩ := jd
    have hsel : selectIndex cs s = some j := by simp [selectIndex, hbc]
    obtain ⟨k0, hk0, hjk0, hgd0, hdf, hds⟩ := bc_sound s cs 0 j d hbc
    have hjlen : j < cs.length := by omega
    have hgdj : cs.getD j default = d := by
      rw [show j = k0 by omega]
      exact hgd0
    obtain ⟨l₁, l₂, hdec, hlen₁⟩ := exists_decomp cs j default hjlen
    rw [hgdj] at hdec
    subst hdec
    subst hlen₁
    have hdpos : 0 < d.size := hp d (by simp)
    have hpfree : ∀ l₁' p, l₁ = l₁' ++ [p] → p.free = false := by
      intro l₁' p hpe
      subst hpe
      rcases noAdjFree_pair l₁' l₂ p d
        (by simpa [List.append_assoc] using hnaf) with hm | hm
      · exact hm
      · rw [hdf] at hm
        exact Bool.noConfusion hm
    have hhead : ∀ n l₂', l₂ = n :: l₂' → n.free = false := by
      intro n l₂' he
      subst he
      rcases noAdjFree_pair l₁ l₂' d n hnaf with hm | hm
      · rw [hdf] at hm
        exact Bool.noConfusion hm
      · exact hm
    simp only [ChunkChain.allocate, hsel, getD_append_len, set_append_len] at h
    split_ifs at h with hd hpre hfol
    · -- preceding-free merge branch is unreachable under no-adjacent-free
      exfalso
      rw [hfa_preceding_false l₁ _ hpfree] at hpre
      exact Bool.noConfusion hpre
    · -- following-free merge branch is unreachable under no-adjacent-free
      exfalso
      rw [hfa_following_false l₁ l₂ _ hhead] at hfol
      exact Bool.noConfusion hfol
    · -- surplus: a fresh free chunk was inserted after the allocation
      simp only [getD_append_len, set_append_len, insertIdx_append_len_succ,
        getD_append_len_succ, Chunk.withOffset] at h
      simp only [Option.some.injEq, Prod.mk.injEq] at h
      obtain ⟨rfl, rfl⟩ := h
      dsimp only
      have hmid : ∀ b, isChain b [d] → isChain b
          [{ offset := d.offset, size := d.size - (d.size - s), free := false },
           { offset := d.offset + s, size := d.size - s, free := true }] := by
        intro b hb
        simp only [isChain] at hb ⊢
        obtain ⟨hb1, _⟩ := hb
        refine ⟨by simpa using hb1, by omega, trivial⟩
      obtain ⟨hch3, _⟩ := isChain_splice 0 l₁ l₂ [d]
        [{ offset := d.offset, size := d.size - (d.size - s), free := false },
         { offset := d.offset + s, size := d.size - s, free := true }]
        (by simpa using hch) (by simp [sumSizes]) hmid
      have hch3' : isChain 0 (l₁ ++
          { offset := d.offset, size := d.size - (d.size - s), free := false } ::
          { offset := d.offset + s, size := d.size - s, free := true } :: l₂) := by
        simpa using hch3
      have hp3 : allPos (l₁ ++
          { offset := d.offset, size := d.size - (d.size - s), free := false } ::
          { offset := d.offset + s, size := d.size - s, free := true } :: l₂) := by
        intro x hx
        simp only [List.mem_append, List.mem_cons] at hx
        rcases hx with hx | hx | hx | hx
        · exact hp x (by simp [hx])
        · subst hx; simp; omega
        · subst hx; simp; omega
        · exact hp x (by simp [hx])
      have hfind : ChunkChain.binarySearchByOffset (l₁ ++
          { offset := d.offset, size := d.size - (d.size - s), free := false } ::
          { offset := d.offset + s, size := d.size - s, free := true } :: l₂)
          d.offset = some l₁.length := by
        have hf := binarySearchByOffset_finds (l₁ ++
          { offset := d.offset, size := d.size - (d.size - s), free := false } ::
          { offset := d.offset + s, size := d.size - s, free := true } :: l₂)
          l₁.length 0 hch3' hp3 (by simp)
        rw [getD_append_len] at hf
        exact hf
      simp only [ChunkChain.release, hfind, getD_append_len]
      split_ifs with hA hB
      · exfalso
        rw [hfa_preceding_false l₁ _ hpfree] at hA
        exact Bool.noConfusion hA
      · simp only [getD_append_len_succ, set_append_len_succ, eraseIdx_append_len]
        have hXd : ({ offset := d.offset + s - (d.size - (d.size - s)),
                      size := d.size - s + (d.size - (d.size - s)),
                      free := true } : Chunk) = d := by
          have h1 : s ≤ d.size := hds
          have h2 : d.free = true := hdf
          cases d
          simp only [Chunk.mk.injEq]
          simp at h1 h2
          refine ⟨by omega, by omega, h2.symm⟩
        rw [hXd]
      · exfalso
        apply hB
        rw [hfa_following_of]
    · -- exact fit: the chunk was only marked occupied
      simp only [Option.some.injEq, Prod.mk.injEq] at h
      obtain ⟨rfl, rfl⟩ := h
      dsimp only
      have hmid : ∀ b, isChain b [d] →
          isChain b [{ d with free := false }] := by
        intro b hb
        simp only [isChain] at hb ⊢
        exact ⟨by simpa using hb.1, trivial⟩
      obtain ⟨hch3, _⟩ := isChain_splice 0 l₁ l₂ [d] [{ d with free := false }]
        (by simpa using hch) (by simp [sumSizes]) hmid
      have hch3' : isChain 0 (l₁ ++ { d with free := false } :: l₂) := by
        simpa using hch3
      have hp3 : allPos (l₁ ++ { d with free := false } :: l₂) := by
        intro x hx
        simp only [List.mem_append, List.mem_cons] at hx
        rcases hx with hx | hx | hx
        · exact hp x (by simp [hx])
        · subst hx; simpa using hdpos
        · exact hp x (by simp [hx])
      have hfind : ChunkChain.binarySearchByOffset
          (l₁ ++ { d with free := false } :: l₂) d.offset = some l₁.length := by
        have hf := binarySearchByOffset_finds
          (l₁ ++ { d with free := false } :: l₂) l₁.length 0 hch3' hp3 (by simp)
        rw [getD_append_len] at hf
        exact hf
      simp only [ChunkChain.release, hfind, getD_append_len]
      split_ifs with hA hB
      · exfalso
        rw [hfa_preceding_false l₁ _ hpfree] at hA
        exact Bool.noConfusion hA
      · exfalso
        rw [hfa_following_false l₁ l₂ _ hhead] at hB
        exact Bool.noConfusion hB
      · simp only [set_append_len]
        have hXd : ({ offset := d.offset, size := d.size, free := true } : Chunk)
            = d := by
          have h2 : d.free = true := hdf
          cases d
          simp at h2
          simp [h2]
        rw [hXd]

/-- Witness for the C6 theorem: allocating 2 from a fresh 4-element table
and releasing offset 0 restores the single free chunk. -/
theorem c6_round_trip_witness :
    ChunkChain.release [⟨0, 2, false⟩, ⟨2, 2, true⟩]
      ((⟨0, 2, false⟩ : Chunk).offset) = some [⟨0, 4, true⟩] :=
  c6_round_trip [⟨0, 4, true⟩] 2 [⟨0, 2, false⟩, ⟨2, 2, true⟩] ⟨0, 2, false⟩
    (by decide) (by simp [isChain]) (by simp [allPos]) (by simp [noAdjFree])
    (by decide)

end SlicePool
